import Mathlib

/-!
Verification of the chart_version_updater repository: a shallow embedding of
its YAML document model, version comparator, ArtifactHub version resolver,
chart discoverer and update orchestrator, together with theorems settling the
frozen specification claims.
-/

set_option maxHeartbeats 1000000
set_option maxRecDepth 100000

namespace ChartUpdater

/-! ### Go string primitives

Structural-recursion implementations over character lists of the string
operations the program uses (`strings.Split` with a one-character separator,
`strings.HasPrefix`/`HasSuffix`/`CutPrefix`/`Contains`, `strings.TrimSpace`
on ASCII whitespace, `strconv.Atoi`). -/

/-- Model of `strings.Split` for a one-character separator. -/
def splitOnCharList (sep : Char) : List Char → List (List Char)
  | [] => [[]]
  | c :: rest =>
    match splitOnCharList sep rest with
    | h :: t => if c = sep then [] :: h :: t else (c :: h) :: t
    | [] => []

/-- Model of `strings.Split(s, ".")`. -/
def goSplitDot (s : String) : List String :=
  (splitOnCharList '.' s.data).map String.mk

/-- ASCII decimal digit. -/
def isDigitChar (c : Char) : Bool := 48 ≤ c.toNat && c.toNat ≤ 57

/-- Accumulate the value of a digit string; `none` on the first non-digit. -/
def digitsValAux (acc : Nat) : List Char → Option Nat
  | [] => some acc
  | c :: rest => if isDigitChar c then digitsValAux (acc * 10 + (c.toNat - 48)) rest else none

/-- The value of a non-empty all-digit string. -/
def digitsVal : List Char → Option Nat
  | [] => none
  | l => digitsValAux 0 l

/-- Model of `strings.HasPrefix`. -/
def goHasPrefix (s pre : String) : Bool := pre.data.isPrefixOf s.data

/-- Model of `strings.HasSuffix`. -/
def goHasSuffix (s suf : String) : Bool := suf.data.isSuffixOf s.data

/-- ASCII `unicode.IsSpace` (tab, newline, vertical tab, form feed,
carriage return, space; the program's annotations are ASCII). -/
def isSpaceChar (c : Char) : Bool := c.toNat = 32 || (9 ≤ c.toNat && c.toNat ≤ 13)

/-- Model of `strings.TrimSpace`. -/
def goTrimSpace (s : String) : String :=
  String.mk (((s.data.dropWhile isSpaceChar).reverse.dropWhile isSpaceChar).reverse)

/-! ### YAML document model (gopkg.in/yaml.v3 node shape, src/unnamed/part_001) -/

/-- Node kinds of yaml.v3 (`DocumentNode`, `SequenceNode`, `MappingNode`,
`ScalarNode`, `AliasNode`). -/
inductive YKind where
  | document
  | sequence
  | mapping
  | scalar
  | aliasK
deriving DecidableEq, Repr

/-- A yaml.v3 `Node`: kind, scalar value, head comment, ordered children.
Mapping children alternate key/value; a document node wraps its root. -/
inductive YamlNode : Type where
  | node (kind : YKind) (value headComment : String) (content : List YamlNode)

/-- The `Kind` field. -/
def YamlNode.kind : YamlNode → YKind
  | .node k _ _ _ => k

/-- The `Value` field. -/
def YamlNode.value : YamlNode → String
  | .node _ v _ _ => v

/-- The `HeadComment` field. -/
def YamlNode.headComment : YamlNode → String
  | .node _ _ c _ => c

/-- The `Content` field. -/
def YamlNode.content : YamlNode → List YamlNode
  | .node _ _ _ c => c

/-- Functional update of the `Value` field (models `n.Value = v`). -/
def YamlNode.withValue : YamlNode → String → YamlNode
  | .node k _ c l, v => .node k v c l

/-- Functional update of the `Content` field (models `n.Content = l`). -/
def YamlNode.withContent : YamlNode → List YamlNode → YamlNode
  | .node k v c _, l => .node k v c l

/-- Model of `findInContent` (src/unnamed/part_001): walk mapping content two nodes at
a time, returning the value node of the first pair whose key matches. -/
def findInContent : List YamlNode → String → Option YamlNode
  | k :: v :: rest, key => if k.value = key then some v else findInContent rest key
  | _, _ => none

/-- Model of `mapGet`: the value for `key` in a mapping node, `none` for non-mappings. -/
def mapGet (n : YamlNode) (key : String) : Option YamlNode :=
  if n.kind = .mapping then findInContent n.content key else none

/-- Model of `lookup`: follow a key path, returning the final node's value, or the
empty string as soon as a segment is absent (`nil` receiver modelled by
`Option`). -/
def lookup : Option YamlNode → List String → String
  | none, _ => ""
  | some n, [] => n.value
  | some n, p :: tail => lookup (mapGet n p) tail

/-- The fresh key node appended by `mapSet`
(`&yaml.Node{Kind: ScalarNode, Value: key}`). -/
def keyNode (key : String) : YamlNode := .node .scalar key "" []

/-- The fresh intermediate node created by `set`
(`&yaml.Node{Kind: MappingNode}`). -/
def emptyMapping : YamlNode := .node .mapping "" "" []

/-- Replace the value node of the first pair matching `key` (the in-place
mutation performed through the pointer returned by `findInContent`). -/
def replaceFirstVal : List YamlNode → String → YamlNode → List YamlNode
  | k :: v :: rest, key, nv =>
    if k.value = key then k :: nv :: rest else k :: v :: replaceFirstVal rest key nv
  | l, _, _ => l

/-- Model of `set` (src/unnamed/part_001): follow the path via `mapGet`, creating an
empty mapping node through `mapSet` (an append of a key node and the new
node) whenever a segment is missing, and assign the value at the end. -/
def set : YamlNode → String → List String → YamlNode
  | n, value, [] => n.withValue value
  | n, value, p :: tail =>
    match mapGet n p with
    | some next => n.withContent (replaceFirstVal n.content p (set next value tail))
    | none => n.withContent (n.content ++ [keyNode p, set emptyMapping value tail])

/-- Model of `docRoot`: the single child of a document node, the node itself otherwise. -/
def docRoot (n : YamlNode) : YamlNode :=
  match n.kind, n.content with
  | .document, c :: _ => c
  | _, _ => n

/-- Model of `kind` helper (the manifest's declared kind): `lookup(docRoot(n), "kind")`. -/
def kindOf (n : YamlNode) : String := lookup (some (docRoot n)) ["kind"]

/-- Model of `getTargetRevision`: `lookup(docRoot(n), "spec", "source", "targetRevision")`. -/
def getTargetRevision (n : YamlNode) : String :=
  lookup (some (docRoot n)) ["spec", "source", "targetRevision"]

/-- Model of `setTargetRevision`: `set(docRoot(n), v, "spec", "source", "targetRevision")`;
the in-place mutation of the document's root is modelled by rebuilding the
document node around the updated root. -/
def setTargetRevision (n : YamlNode) (v : String) : YamlNode :=
  match n with
  | .node .document val hc (c :: rest) =>
    .node .document val hc (set c v ["spec", "source", "targetRevision"] :: rest)
  | _ => set n v ["spec", "source", "targetRevision"]

/-- The `KindApplication` constant. -/
def KindApplication : String := "Application"

/-- The `artifactHubPrefix` constant, `"# artifacthub:"`. -/
def artifactHubMarker : String := "# artifacthub:"

/-- Model of `strings.CutPrefix`: the remainder after the marker, when present. -/
def cutMarker (s marker : String) : Option String :=
  if goHasPrefix s marker then some (String.mk (s.data.drop marker.data.length)) else none

/-- Model of `getArtifactHubRepo` (src/unnamed/part_001): when the root is a mapping
with at least one child, cut `"# artifacthub:"` off the first key's head
comment and trim the remainder; empty string otherwise. -/
def getArtifactHubRepo (n : YamlNode) : String :=
  let root := docRoot n
  if root.kind = .mapping then
    match root.content with
    | firstKey :: _ =>
      match cutMarker firstKey.headComment artifactHubMarker with
      | some after => goTrimSpace after
      | none => ""
    | [] => ""
  else ""

/-! ### Version comparator (src/version.go, both variants) -/

/-- Model of `strconv.Atoi` as used with its error ignored: an optionally signed
digit string yields its value clamped to the int64 range (`ErrRange`
returns the clamped value), anything else — including the empty string —
yields 0 (`ErrSyntax`). -/
def atoi (s : String) : Int :=
  let parsed : Option Int :=
    match s.data with
    | '-' :: rest => (digitsVal rest).map (fun n => -(n : Int))
    | '+' :: rest => (digitsVal rest).map (fun n => (n : Int))
    | l => (digitsVal l).map (fun n => (n : Int))
  match parsed with
  | none => 0
  | some x => max (-(2 ^ 63)) (min (2 ^ 63 - 1) x)

/-- The loop of the first `versionLess` variant, with the remaining number
of iterations made explicit: at index `i`, compare the components as
integers (missing components count as 0), answer at the first differing
index, `false` once the iterations are exhausted. -/
def versionCompAux (as bs : List String) (i : Nat) : Nat → Bool
  | 0 => false
  | fuel + 1 =>
    let ai := atoi (as.getD i "")
    let bi := atoi (bs.getD i "")
    if ai ≠ bi then ai < bi else versionCompAux as bs (i + 1) fuel

/-- Model of `versionLess` (src/version.go, loop variant): split on `.`, compare
component-wise as integers up to the longer length. -/
def versionLess (a b : String) : Bool :=
  let as := goSplitDot a
  let bs := goSplitDot b
  versionCompAux as bs 0 (max as.length bs.length)

/-- Model of `versionLess` (src/version.go, iterator variant): zip the two component
lists extended by the infinite repetition of `"0"`, take `max` length pairs,
find the first pair with differing integer values. -/
def versionLess2 (a b : String) : Bool :=
  let as := goSplitDot a
  let bs := goSplitDot b
  let limit := max as.length bs.length
  let pairs := (List.range limit).map (fun i => (as.getD i "0", bs.getD i "0"))
  match pairs.find? (fun p => atoi p.1 != atoi p.2) with
  | some p => atoi p.1 < atoi p.2
  | none => false

/-! ### ArtifactHub version resolution (src/artifacthub.go) -/

/-- Model of `isStable`: no `-` character (pre-release marker). -/
def isStable (v : String) : Bool := !(v.data.contains '-')

/-- The comparator passed to `slices.MaxFunc` in `findLatestStable`. -/
def cmpVer (a b : String) : Int :=
  if versionLess a b then -1 else if versionLess b a then 1 else 0

/-- The loop body of `slices.MaxFunc`: the accumulator is replaced exactly
when the comparator applied to the new element and the accumulator is
positive. -/
def maxStep (m a : String) : String := if 0 < cmpVer a m then a else m

/-- Model of `findLatestStable`: filter the stable versions; none found on an empty
filter result, otherwise `slices.MaxFunc` (the first maximal element). -/
def findLatestStable (versions : List String) : Option String :=
  match versions.filter isStable with
  | [] => none
  | h :: t => some (t.foldl maxStep h)

/-! ### Configuration and chart discovery (src/config.go) -/

/-- Model of `Config`: resolved configuration. -/
structure Config where
  dir : String
  dryRun : Bool
  checkOnly : Bool
deriving DecidableEq, Repr

/-- A directory entry as seen by the discoverer (`os.DirEntry`). -/
structure DirEntry where
  name : String
  isDir : Bool
deriving DecidableEq, Repr

/-- Model of `ChartInfo`: a discovered manifest (path relative to the scanned
directory) and its ArtifactHub repository. -/
structure ChartInfo where
  file : String
  repo : String
deriving DecidableEq, Repr

/-- Model of `filepath.Join` for a directory and a clean relative file name. -/
def joinPath (dir file : String) : String := dir ++ "/" ++ file

/-- Model of `isYamlFile`: a non-directory entry named `*.yaml` or `*.yml`. -/
def isYamlFile (e : DirEntry) : Bool :=
  !e.isDir && (goHasSuffix e.name ".yaml" || goHasSuffix e.name ".yml")

/-- Model of `isValidPath`: resolve the candidate's absolute path (resolution failure
rejects) and require it to equal the absolute directory or to extend it past
a path separator. `abs` models `filepath.Abs`. -/
def isValidPath (abs : String → Option String) (absDir path : String) : Bool :=
  match abs path with
  | none => false
  | some absPath => goHasPrefix absPath (absDir ++ "/") || absPath == absDir

/-- Model of `filepath.Rel` for our shapes: strip the base directory when it is a
proper ancestor, otherwise fall back to the target itself. -/
def relativePath (base target : String) : String :=
  if goHasPrefix target (base ++ "/") then String.mk (target.data.drop (base.data.length + 1))
  else target

/-- Model of `extractArtifactHubRepo`: read the file, keep the Application-kind
documents, map them to their annotation and return the first non-empty one
(empty string, not an error, when there is none). -/
def extractArtifactHubRepo (readYaml : String → Except String (List YamlNode))
    (path : String) : Except String String :=
  match readYaml path with
  | .error e => .error e
  | .ok docs =>
    let apps := docs.filter (fun n => kindOf n == KindApplication)
    let repos := apps.map getArtifactHubRepo
    match repos.find? (fun s => s != "") with
    | some repo => .ok repo
    | none => .ok ""

/-- Model of `toChartInfo`: the zero `ChartInfo` on a read/parse failure, otherwise
the relative path paired with the extracted repository. -/
def toChartInfo (readYaml : String → Except String (List YamlNode))
    (path baseDir : String) : ChartInfo :=
  match extractArtifactHubRepo readYaml path with
  | .error _ => ⟨"", ""⟩
  | .ok repo => ⟨relativePath baseDir path, repo⟩

/-- Model of `MakeChartDiscoverer` applied to a directory: `stat` yields the
`IsDir` bit or fails, `readDir` lists entries or fails, `abs` models
`filepath.Abs`. The functional pipeline filters YAML entries, joins paths,
applies the containment check, extracts chart info and keeps entries whose
repository is non-empty. -/
def makeChartDiscoverer (stat : String → Except String Bool)
    (readDir : String → Except String (List DirEntry))
    (readYaml : String → Except String (List YamlNode))
    (abs : String → Option String)
    (dir : String) : Except String (List ChartInfo) :=
  match stat dir with
  | .error e => .error ("cannot access directory: " ++ e)
  | .ok isDir =>
    if !isDir then .error ("path is not a directory: " ++ dir)
    else
      match abs dir with
      | none => .error "cannot resolve directory path"
      | some absDir =>
        match readDir dir with
        | .error e => .error ("cannot read directory: " ++ e)
        | .ok entries =>
          let yamlFiles := entries.filter isYamlFile
          let paths := yamlFiles.map (fun e => joinPath dir e.name)
          let validPaths := paths.filter (fun p => isValidPath abs absDir p)
          let chartInfos := validPaths.map (fun p => toChartInfo readYaml p dir)
          .ok (chartInfos.filter (fun c => c.repo != ""))

/-! ### Update orchestrator (src/update.go) -/

inductive UpdateStatus where
  | upToDate
  | updated
  | error
deriving DecidableEq, Repr

/-- Model of `UpdateResult`; the `error` field is modelled as an optional message,
present exactly on the error paths of the orchestrator. -/
structure UpdateResult where
  file : String
  repo : String
  current : String
  latest : String
  status : UpdateStatus
  errMsg : Option String
deriving DecidableEq, Repr

/-- Model of `findCurrentVersion`: the target revision of the first Application-kind
document, `none` when no document has kind `Application`. -/
def findCurrentVersion (docs : List YamlNode) : Option String :=
  (docs.find? (fun n => kindOf n == KindApplication)).map getTargetRevision

/-- Model of `updateDocuments`: apply `setTargetRevision` to every Application-kind
document (the in-place `Filter`/`ForEach` is the conditional map). -/
def updateDocuments (docs : List YamlNode) (version : String) : List YamlNode :=
  docs.map (fun d => if kindOf d == KindApplication then setTargetRevision d version else d)

/-- Model of `MakeChartUpdater` applied to one file: collaborators are passed as pure
functions (`read`/`fetch` may fail with a message, `write` returns an error
message or succeeds); the second component of the result is the list of
`write` invocations performed, in order. -/
def makeChartUpdater (cfg : Config) (read : String → Except String (List YamlNode))
    (fetch : String → Except String String)
    (write : String → List YamlNode → Option String)
    (file repo : String) : UpdateResult × List (String × List YamlNode) :=
  let path := joinPath cfg.dir file
  match read path with
  | .error e =>
    (⟨file, repo, "", "", .error, some e⟩, [])
  | .ok docs =>
    match findCurrentVersion docs with
    | none =>
      (⟨file, repo, "", "", .error, some ("failed to read current version in " ++ file)⟩, [])
    | some current =>
      match fetch repo with
      | .error e => (⟨file, repo, current, "", .error, some e⟩, [])
      | .ok latest =>
        if !versionLess current latest then
          (⟨file, repo, current, latest, .upToDate, none⟩, [])
        else
          let docs' := updateDocuments docs latest
          match write path docs' with
          | some werr => (⟨file, repo, current, latest, .error, some werr⟩, [(path, docs')])
          | none => (⟨file, repo, current, latest, .updated, none⟩, [(path, docs')])

/-! ### Views and predicates used by the claim statements -/

/-- The key/value pairs of a mapping's content, in content order
(a trailing unpaired node is ignored, as in `findInContent`). -/
def pairsOf : List YamlNode → List (YamlNode × YamlNode)
  | k :: v :: rest => (k, v) :: pairsOf rest
  | _ => []

/-- The traversal of `set` along `path` stays well formed: every existing
node entered is a mapping, and the node at which the path goes missing (if
any) has pair-aligned (even-length) content, so that the appended key/value
pair is seen by `findInContent`. -/
def pathFits : YamlNode → List String → Bool
  | _, [] => true
  | n, p :: tail =>
    n.kind == .mapping &&
    (match findInContent n.content p with
     | some v => pathFits v tail
     | none => n.content.length % 2 == 0)

/-- The path written by `setTargetRevision`. -/
def revPath : List String := ["spec", "source", "targetRevision"]

/-- The `spec.source.targetRevision` traversal of a document is well formed
(documents with an empty content list cannot host the field). -/
def fitsTargetRevision (d : YamlNode) : Bool :=
  match d with
  | .node .document _ _ (c :: _) => pathFits c revPath
  | .node .document _ _ [] => false
  | _ => pathFits d revPath

/-- The integer value of the `i`-th dot-component of a split version string
(missing components give `atoi "" = 0`). -/
def vcompAt (l : List String) (i : Nat) : Int := atoi (l.getD i "")

/-- Lexicographic strict order on component sequences: some first index
where they differ has the left one smaller. -/
def LexLt (f g : Nat → Int) : Prop :=
  ∃ i, (∀ j < i, f j = g j) ∧ f i < g i

/-! ### Basic lemmas about the document model -/

theorem withValue_kind (n : YamlNode) (v : String) : (n.withValue v).kind = n.kind := by
  cases n; rfl

theorem withValue_headComment (n : YamlNode) (v : String) :
    (n.withValue v).headComment = n.headComment := by
  cases n; rfl

theorem withValue_content (n : YamlNode) (v : String) : (n.withValue v).content = n.content := by
  cases n; rfl

theorem withValue_value (n : YamlNode) (v : String) : (n.withValue v).value = v := by
  cases n; rfl

theorem withContent_kind (n : YamlNode) (l : List YamlNode) : (n.withContent l).kind = n.kind := by
  cases n; rfl

theorem withContent_headComment (n : YamlNode) (l : List YamlNode) :
    (n.withContent l).headComment = n.headComment := by
  cases n; rfl

theorem withContent_value (n : YamlNode) (l : List YamlNode) : (n.withContent l).value = n.value := by
  cases n; rfl

theorem withContent_content (n : YamlNode) (l : List YamlNode) : (n.withContent l).content = l := by
  cases n; rfl

theorem set_nil (n : YamlNode) (value : String) : set n value [] = n.withValue value := rfl

theorem set_cons (n : YamlNode) (value : String) (p : String) (tail : List String) :
    set n value (p :: tail) =
      match mapGet n p with
      | some next => n.withContent (replaceFirstVal n.content p (set next value tail))
      | none => n.withContent (n.content ++ [keyNode p, set emptyMapping value tail]) := rfl

theorem set_kind (n : YamlNode) (value : String) (path : List String) :
    (set n value path).kind = n.kind := by
  cases path with
  | nil => exact withValue_kind n value
  | cons p tail =>
    rw [set_cons]
    cases mapGet n p <;> simp [withContent_kind]

theorem set_headComment (n : YamlNode) (value : String) (path : List String) :
    (set n value path).headComment = n.headComment := by
  cases path with
  | nil => exact withValue_headComment n value
  | cons p tail =>
    rw [set_cons]
    cases mapGet n p <;> simp [withContent_headComment]

theorem set_value_of_ne_nil (n : YamlNode) (value : String) (path : List String)
    (h : path ≠ []) : (set n value path).value = n.value := by
  cases path with
  | nil => exact absurd rfl h
  | cons p tail =>
    rw [set_cons]
    cases mapGet n p <;> simp [withContent_value]

/-- After replacing the first value for `key`, `findInContent` finds the
replacement. -/
theorem findInContent_replace_self : ∀ (content : List YamlNode) (key : String)
    (nv v : YamlNode), findInContent content key = some v →
    findInContent (replaceFirstVal content key nv) key = some nv
  | [], _, _, _, h => by simp [findInContent] at h
  | [_], _, _, _, h => by simp [findInContent] at h
  | k :: v0 :: rest, key, nv, v, h => by
    by_cases hk : k.value = key
    · simp [replaceFirstVal, findInContent, hk]
    · simp only [findInContent, if_neg hk] at h
      simp only [replaceFirstVal, if_neg hk, findInContent, if_neg hk]
      exact findInContent_replace_self rest key nv v h

/-- Lookups of another key are unaffected by the replacement. -/
theorem findInContent_replace_other : ∀ (content : List YamlNode) (key : String)
    (nv : YamlNode) (q : String), q ≠ key →
    findInContent (replaceFirstVal content key nv) q = findInContent content q
  | [], _, _, _, _ => rfl
  | [_], _, _, _, _ => rfl
  | k :: v0 :: rest, key, nv, q, hq => by
    by_cases hk : k.value = key
    · have hkq : k.value ≠ q := by rw [hk]; exact fun h => hq h.symm
      simp [replaceFirstVal, if_pos hk, findInContent, if_neg hkq]
    · simp only [replaceFirstVal, if_neg hk, findInContent]
      by_cases hkq : k.value = q
      · simp [hkq]
      · simp only [if_neg hkq]
        exact findInContent_replace_other rest key nv q hq

/-- A key that is not replaced because it is absent leaves the list alone. -/
theorem replaceFirstVal_of_none : ∀ (content : List YamlNode) (key : String)
    (nv : YamlNode), findInContent content key = none →
    replaceFirstVal content key nv = content
  | [], _, _, _ => rfl
  | [_], _, _, _ => rfl
  | k :: v0 :: rest, key, nv, h => by
    by_cases hk : k.value = key
    · simp [findInContent, hk] at h
    · simp only [findInContent, if_neg hk] at h
      simp [replaceFirstVal, if_neg hk, replaceFirstVal_of_none rest key nv h]

/-- Over pair-aligned content, `findInContent` distributes over append. -/
theorem findInContent_append_even : ∀ (content l₂ : List YamlNode) (q : String),
    content.length % 2 = 0 →
    findInContent (content ++ l₂) q =
      match findInContent content q with
      | some v => some v
      | none => findInContent l₂ q
  | [], l₂, q, _ => by simp [findInContent]
  | [_], l₂, q, h => by simp at h
  | k :: v0 :: rest, l₂, q, h => by
    have hrest : rest.length % 2 = 0 := by
      simp [List.length_cons] at h
      omega
    by_cases hk : k.value = q
    · simp [findInContent, hk]
    · simp only [List.cons_append, findInContent, if_neg hk]
      exact findInContent_append_even rest l₂ q hrest

/-- The freshly appended pair `[keyNode p, m]` resolves key `p` to `m` and
nothing else. -/
theorem findInContent_pair (p : String) (m : YamlNode) (q : String) :
    findInContent [keyNode p, m] q = if p = q then some m else none := rfl

/-- The first matching pair decomposes the content around the replaced
value. -/
theorem findInContent_decomp : ∀ (content : List YamlNode) (key : String)
    (nv v : YamlNode), findInContent content key = some v →
    ∃ pre k post, content = pre ++ k :: v :: post ∧ k.value = key ∧
      replaceFirstVal content key nv = pre ++ k :: nv :: post
  | [], _, _, _, h => by simp [findInContent] at h
  | [_], _, _, _, h => by simp [findInContent] at h
  | k :: v0 :: rest, key, nv, v, h => by
    by_cases hk : k.value = key
    · refine ⟨[], k, rest, ?_, hk, ?_⟩
      · simp only [findInContent, if_pos hk, Option.some.injEq] at h
        simp [h]
      · simp [replaceFirstVal, if_pos hk]
    · simp only [findInContent, if_neg hk] at h
      obtain ⟨pre, k', post, hc, hkv, hr⟩ := findInContent_decomp rest key nv v h
      refine ⟨k :: v0 :: pre, k', post, by simp [hc], hkv, ?_⟩
      simp [replaceFirstVal, if_neg hk, hr]

/-! ### C10: first-occurrence semantics of `mapGet` -/

/-- The function `findInContent` returns the value of the pair at the first index whose
key matches. -/
theorem findInContent_first : ∀ (content : List YamlNode) (key : String)
    (i : Nat) (k v : YamlNode),
    (pairsOf content).get? i = some (k, v) → k.value = key →
    (∀ j kv, j < i → (pairsOf content).get? j = some kv → kv.1.value ≠ key) →
    findInContent content key = some v
  | [], key, i, k, v, hi, _, _ => by simp [pairsOf] at hi
  | [_], key, i, k, v, hi, _, _ => by simp [pairsOf] at hi
  | k0 :: v0 :: rest, key, i, k, v, hi, hk, hfirst => by
    cases i with
    | zero =>
      simp only [pairsOf, List.get?] at hi
      obtain ⟨hk0, hv0⟩ := Prod.mk.injEq .. ▸ Option.some.injEq .. ▸ hi
      subst hk0; subst hv0
      simp [findInContent, hk]
    | succ i' =>
      have hne : k0.value ≠ key := by
        exact hfirst 0 (k0, v0) (Nat.succ_pos i') rfl
      simp only [findInContent, if_neg hne]
      refine findInContent_first rest key i' k v ?_ hk ?_
      · simpa [pairsOf] using hi
      · intro j kv hj hkv
        exact hfirst (j + 1) kv (Nat.succ_lt_succ hj) (by simpa [pairsOf] using hkv)

/-- C10: for a mapping node containing duplicate keys, `mapGet` (hence
`lookup`) returns the value node of the first occurrence of the key in
content order; later duplicates are never consulted. -/
theorem mapGet_first_occurrence (n : YamlNode) (key : String) (i : Nat) (k v : YamlNode)
    (hmap : n.kind = .mapping)
    (hi : (pairsOf n.content).get? i = some (k, v))
    (hk : k.value = key)
    (hfirst : ∀ j kv, j < i → (pairsOf n.content).get? j = some kv → kv.1.value ≠ key) :
    mapGet n key = some v := by
  unfold mapGet
  rw [if_pos hmap]
  exact findInContent_first n.content key i k v hi hk hfirst

/-- Witness for C10: a mapping with two `dup` keys resolves to the first
value. -/
theorem mapGet_first_occurrence_witness :
    mapGet (.node .mapping "" ""
      [.node .scalar "dup" "" [], .node .scalar "one" "" [],
       .node .scalar "dup" "" [], .node .scalar "two" "" []]) "dup" =
      some (.node .scalar "one" "" []) :=
  mapGet_first_occurrence _ "dup" 0 (.node .scalar "dup" "" []) (.node .scalar "one" "" [])
    rfl rfl rfl (fun j _ hj _ => absurd hj (Nat.not_lt_zero j))

/-! ### C2: `set` / `lookup` interaction -/

theorem lookup_none : ∀ (q : List String), lookup none q = ""
  | [] => rfl
  | _ :: _ => rfl

theorem pathFits_emptyMapping : ∀ (tail : List String), pathFits emptyMapping tail = true
  | [] => rfl
  | _ :: _ => by
    simp [pathFits, emptyMapping, findInContent, YamlNode.kind, YamlNode.content]

/-- Destructure `pathFits` on a non-empty path. -/
theorem pathFits_cons {n : YamlNode} {p : String} {tail : List String}
    (h : pathFits n (p :: tail) = true) :
    n.kind = .mapping ∧
      ((∃ v, findInContent n.content p = some v ∧ pathFits v tail = true) ∨
       (findInContent n.content p = none ∧ n.content.length % 2 = 0)) := by
  unfold pathFits at h
  rw [Bool.and_eq_true, beq_iff_eq] at h
  refine ⟨h.1, ?_⟩
  have h2 := h.2
  cases hfc : findInContent n.content p with
  | some v =>
    rw [hfc] at h2
    exact Or.inl ⟨v, rfl, h2⟩
  | none =>
    rw [hfc] at h2
    exact Or.inr ⟨rfl, by simpa using h2⟩

/-- Looking up anything other than the written path inside a freshly created
chain of mapping nodes gives the empty string. -/
theorem lookup_set_fresh : ∀ (tail : List String) (value : String) (q : List String),
    q ≠ tail → lookup (some (set emptyMapping value tail)) q = ""
  | [], value, [], hq => absurd rfl hq
  | [], value, _ :: _, _ => by
    simp [set_nil, lookup, mapGet, emptyMapping, YamlNode.withValue, findInContent,
      YamlNode.kind, YamlNode.content]
  | t :: ts, value, q, hq => by
    have hmg : mapGet emptyMapping t = none := rfl
    rw [set_cons, hmg]
    cases q with
    | nil =>
      show (emptyMapping.withContent _).value = ""
      rw [withContent_value]; rfl
    | cons y q' =>
      show lookup (mapGet (emptyMapping.withContent
        (emptyMapping.content ++ [keyNode t, set emptyMapping value ts])) y) q' = ""
      have hk : (emptyMapping.withContent
          (emptyMapping.content ++ [keyNode t, set emptyMapping value ts])).kind = .mapping := by
        rw [withContent_kind]; rfl
      unfold mapGet
      rw [if_pos hk, withContent_content]
      show lookup (findInContent ([] ++ [keyNode t, set emptyMapping value ts]) y) q' = ""
      rw [List.nil_append, findInContent_pair]
      by_cases hy : t = y
      · rw [if_pos hy]
        have hq' : q' ≠ ts := by
          intro h
          exact hq (by rw [hy, h])
        exact lookup_set_fresh ts value q' hq'
      · rw [if_neg hy]
        exact lookup_none q'

/-- Writing a well-formed path and reading it back yields the written
value. -/
theorem lookup_set_self : ∀ (path : List String) (n : YamlNode) (value : String),
    path ≠ [] → pathFits n path = true →
    lookup (some (set n value path)) path = value
  | [], _, _, h, _ => absurd rfl h
  | p :: tail, n, value, _, hfit => by
    obtain ⟨hmap, hbr⟩ := pathFits_cons hfit
    cases hbr with
    | inl hsome =>
      obtain ⟨v, hfc, hnext⟩ := hsome
      have hmg : mapGet n p = some v := by unfold mapGet; rw [if_pos hmap, hfc]
      rw [set_cons, hmg]
      show lookup (mapGet (n.withContent (replaceFirstVal n.content p (set v value tail))) p)
        tail = value
      have hget : mapGet (n.withContent (replaceFirstVal n.content p (set v value tail))) p =
          some (set v value tail) := by
        unfold mapGet
        rw [withContent_kind, if_pos hmap, withContent_content]
        exact findInContent_replace_self n.content p (set v value tail) v hfc
      rw [hget]
      cases tail with
      | nil =>
        show (v.withValue value).value = value
        exact withValue_value v value
      | cons t' ts' =>
        exact lookup_set_self (t' :: ts') v value (by simp) hnext
    | inr hnone =>
      obtain ⟨hfc, heven⟩ := hnone
      have hmg : mapGet n p = none := by unfold mapGet; rw [if_pos hmap, hfc]
      rw [set_cons, hmg]
      show lookup (mapGet (n.withContent
        (n.content ++ [keyNode p, set emptyMapping value tail])) p) tail = value
      have hget : mapGet (n.withContent (n.content ++ [keyNode p, set emptyMapping value tail]))
          p = some (set emptyMapping value tail) := by
        unfold mapGet
        rw [withContent_kind, if_pos hmap, withContent_content,
          findInContent_append_even n.content _ p heven, hfc, findInContent_pair, if_pos rfl]
      rw [hget]
      cases tail with
      | nil =>
        show (emptyMapping.withValue value).value = value
        exact withValue_value emptyMapping value
      | cons t' ts' =>
        exact lookup_set_self (t' :: ts') emptyMapping value (by simp)
          (pathFits_emptyMapping (t' :: ts'))

/-- Frame: any other path reads the same value after the write. -/
theorem lookup_set_frame : ∀ (path : List String) (n : YamlNode) (value : String)
    (q : List String), pathFits n path = true → q ≠ path →
    lookup (some (set n value path)) q = lookup (some n) q
  | [], n, value, q, _, hq => by
    cases q with
    | nil => exact absurd rfl hq
    | cons x q' =>
      show lookup (mapGet (n.withValue value) x) q' = lookup (mapGet n x) q'
      have : mapGet (n.withValue value) x = mapGet n x := by
        unfold mapGet
        rw [withValue_kind, withValue_content]
      rw [this]
  | p :: tail, n, value, q, hfit, hq => by
    obtain ⟨hmap, hbr⟩ := pathFits_cons hfit
    cases q with
    | nil =>
      show (set n value (p :: tail)).value = n.value
      exact set_value_of_ne_nil n value (p :: tail) (by simp)
    | cons x q' =>
      show lookup (mapGet (set n value (p :: tail)) x) q' = lookup (mapGet n x) q'
      cases hbr with
      | inl hsome =>
        obtain ⟨v, hfc, hnext⟩ := hsome
        have hmg : mapGet n p = some v := by unfold mapGet; rw [if_pos hmap, hfc]
        rw [set_cons, hmg]
        by_cases hx : x = p
        · subst hx
          have h1 : mapGet (n.withContent (replaceFirstVal n.content x (set v value tail))) x =
              some (set v value tail) := by
            unfold mapGet
            rw [withContent_kind, if_pos hmap, withContent_content]
            exact findInContent_replace_self n.content x (set v value tail) v hfc
          have h2 : mapGet n x = some v := by unfold mapGet; rw [if_pos hmap, hfc]
          rw [h1, h2]
          have hq' : q' ≠ tail := fun h => hq (by rw [h])
          exact lookup_set_frame tail v value q' hnext hq'
        · have h1 : mapGet (n.withContent (replaceFirstVal n.content p (set v value tail))) x =
              mapGet n x := by
            unfold mapGet
            rw [withContent_kind, withContent_content, if_pos hmap, if_pos hmap]
            exact findInContent_replace_other n.content p (set v value tail) x hx
          rw [h1]
      | inr hnone =>
        obtain ⟨hfc, heven⟩ := hnone
        have hmg : mapGet n p = none := by unfold mapGet; rw [if_pos hmap, hfc]
        rw [set_cons, hmg]
        by_cases hx : x = p
        · subst hx
          have h1 : mapGet (n.withContent
              (n.content ++ [keyNode x, set emptyMapping value tail])) x =
              some (set emptyMapping value tail) := by
            unfold mapGet
            rw [withContent_kind, if_pos hmap, withContent_content,
              findInContent_append_even n.content _ x heven, hfc, findInContent_pair, if_pos rfl]
          have h2 : mapGet n x = none := by unfold mapGet; rw [if_pos hmap, hfc]
          rw [h1, h2]
          have hq' : q' ≠ tail := fun h => hq (by rw [h])
          show lookup (some (set emptyMapping value tail)) q' = lookup none q'
          rw [lookup_set_fresh tail value q' hq', lookup_none]
        · have h1 : mapGet (n.withContent
              (n.content ++ [keyNode p, set emptyMapping value tail])) x = mapGet n x := by
            unfold mapGet
            rw [withContent_kind, withContent_content, if_pos hmap, if_pos hmap,
              findInContent_append_even n.content _ x heven]
            cases hfx : findInContent n.content x with
            | some w => rfl
            | none =>
              rw [findInContent_pair, if_neg (fun h => hx h.symm)]
          rw [h1]

/-- C2 counterexample: the claim quantifies over every node, but `set`
through a non-mapping node appends to its content while `lookup` refuses to
descend into a non-mapping, so the written value is not read back. For the
scalar node `x` and the path `["a"]`, `Set` followed by `Lookup` yields `""`
rather than the written `"v"`. -/
theorem set_lookup_counterexample :
    lookup (some (set (YamlNode.node .scalar "x" "" []) "v" ["a"])) ["a"] = "" ∧
      ("" : String) ≠ "v" := by
  constructor
  · rfl
  · decide

/-- C2 (amended): for every node and non-empty key path whose traversal is
well formed (`pathFits`: each existing node entered is a mapping, and the
content of the node where the path goes missing is pair-aligned), after
`Set(node, path, value)` a `Lookup(node, path)` returns `value` (intermediate
mapping nodes are created for missing segments), the `Lookup` result of
every other path is unchanged, and the node's kind, head comment, own value
and sibling pairs (order, values, comments) are undisturbed: the new content
either replaces the first value paired with the head key in place or appends
a fresh key/value pair at the end. -/
theorem set_lookup_spec (n : YamlNode) (value : String) (path : List String)
    (hne : path ≠ []) (hfit : pathFits n path = true) :
    lookup (some (set n value path)) path = value ∧
    (∀ q, q ≠ path → lookup (some (set n value path)) q = lookup (some n) q) ∧
    (set n value path).kind = n.kind ∧
    (set n value path).headComment = n.headComment ∧
    (set n value path).value = n.value ∧
    ∀ p tail, path = p :: tail →
      (∃ pre k v post, n.content = pre ++ k :: v :: post ∧ k.value = p ∧
        (set n value path).content = pre ++ k :: set v value tail :: post) ∨
      (findInContent n.content p = none ∧
        (set n value path).content = n.content ++ [keyNode p, set emptyMapping value tail]) := by
  refine ⟨lookup_set_self path n value hne hfit,
    fun q hq => lookup_set_frame path n value q hfit hq,
    set_kind n value path, set_headComment n value path,
    set_value_of_ne_nil n value path hne, ?_⟩
  intro p tail hpt
  subst hpt
  obtain ⟨hmap, _⟩ := pathFits_cons hfit
  cases hfc : findInContent n.content p with
  | some v =>
    left
    have hmg : mapGet n p = some v := by unfold mapGet; rw [if_pos hmap, hfc]
    obtain ⟨pre, k, post, hdecomp, hkv, hrep⟩ :=
      findInContent_decomp n.content p (set v value tail) v hfc
    refine ⟨pre, k, v, post, hdecomp, hkv, ?_⟩
    rw [set_cons, hmg, withContent_content, hrep]
  | none =>
    right
    have hmg : mapGet n p = none := by unfold mapGet; rw [if_pos hmap, hfc]
    refine ⟨rfl, ?_⟩
    rw [set_cons, hmg, withContent_content]

/-- Witness for C2: a two-level write into a concrete mapping is read back
and the hypotheses hold at that input. -/
theorem set_lookup_spec_witness :
    (["spec", "source"] : List String) ≠ [] ∧
    pathFits (YamlNode.node .mapping "" ""
      [YamlNode.node .scalar "spec" "" [], YamlNode.node .mapping "" "" []])
      ["spec", "source"] = true ∧
    lookup (some (set (YamlNode.node .mapping "" ""
      [YamlNode.node .scalar "spec" "" [], YamlNode.node .mapping "" "" []])
      "2.0.0" ["spec", "source"])) ["spec", "source"] = "2.0.0" :=
  ⟨by decide, by decide,
    (set_lookup_spec (YamlNode.node .mapping "" ""
      [YamlNode.node .scalar "spec" "" [], YamlNode.node .mapping "" "" []])
      "2.0.0" ["spec", "source"] (by decide) (by decide)).1⟩

/-! ### C4: the Mutate step -/

theorem docRoot_eq_self {m : YamlNode} (h : m.kind ≠ .document) : docRoot m = m := by
  cases m with
  | node k val hc content =>
    cases k <;> cases content <;> first
      | rfl
      | exact absurd rfl h

/-- Writing the target revision along a well-formed `spec.source.targetRevision`
traversal makes it readable. -/
theorem getTargetRevision_setTargetRevision (d : YamlNode) (v : String)
    (hfit : fitsTargetRevision d = true) :
    getTargetRevision (setTargetRevision d v) = v := by
  cases d with
  | node k val hc content =>
    cases k with
    | document =>
      cases content with
      | nil => simp [fitsTargetRevision] at hfit
      | cons c rest =>
        have hfitc : pathFits c revPath = true := by simpa [fitsTargetRevision] using hfit
        show getTargetRevision (.node .document val hc
          (set c v ["spec", "source", "targetRevision"] :: rest)) = v
        unfold getTargetRevision
        show lookup (some (docRoot (.node .document val hc
          (set c v ["spec", "source", "targetRevision"] :: rest))))
          ["spec", "source", "targetRevision"] = v
        have hroot : docRoot (.node .document val hc
            (set c v ["spec", "source", "targetRevision"] :: rest)) =
            set c v ["spec", "source", "targetRevision"] := rfl
        rw [hroot]
        exact lookup_set_self ["spec", "source", "targetRevision"] c v (by simp) hfitc
    | mapping =>
      have hfitd : pathFits (YamlNode.node .mapping val hc content) revPath = true := by
        simpa [fitsTargetRevision] using hfit
      show getTargetRevision (set (YamlNode.node .mapping val hc content) v
        ["spec", "source", "targetRevision"]) = v
      unfold getTargetRevision
      rw [docRoot_eq_self (by rw [set_kind]; simp [YamlNode.kind])]
      exact lookup_set_self ["spec", "source", "targetRevision"]
        (YamlNode.node .mapping val hc content) v (by simp) hfitd
    | sequence =>
      have hfitd : pathFits (YamlNode.node .sequence val hc content) revPath = true := by
        simpa [fitsTargetRevision] using hfit
      simp [pathFits, YamlNode.kind] at hfitd
    | scalar =>
      have hfitd : pathFits (YamlNode.node .scalar val hc content) revPath = true := by
        simpa [fitsTargetRevision] using hfit
      simp [pathFits, YamlNode.kind] at hfitd
    | aliasK =>
      have hfitd : pathFits (YamlNode.node .aliasK val hc content) revPath = true := by
        simpa [fitsTargetRevision] using hfit
      simp [pathFits, YamlNode.kind] at hfitd

/-- C4: the Mutate step applies `SetTargetVersion` with the latest version
to every Application-kind document in the sequence (not only the first) and
leaves every non-Application document completely unchanged; on Application
documents whose `spec.source.targetRevision` traversal is well formed the
field afterwards reads the latest version. -/
theorem updateDocuments_spec (docs : List YamlNode) (version : String) :
    (updateDocuments docs version).length = docs.length ∧
    (∀ i (h : i < docs.length),
      (updateDocuments docs version).get? i =
        some (if kindOf (docs.get ⟨i, h⟩) == KindApplication
              then setTargetRevision (docs.get ⟨i, h⟩) version
              else docs.get ⟨i, h⟩)) ∧
    (∀ i (h : i < docs.length), kindOf (docs.get ⟨i, h⟩) = KindApplication →
      fitsTargetRevision (docs.get ⟨i, h⟩) = true →
      ((updateDocuments docs version).get? i).map getTargetRevision = some version) := by
  refine ⟨by simp [updateDocuments], ?_, ?_⟩
  · intro i h
    rw [updateDocuments, List.get?_map, List.get?_eq_get h]
    rfl
  · intro i h happ hfit
    rw [updateDocuments, List.get?_map, List.get?_eq_get h]
    show some (getTargetRevision (if kindOf (docs.get ⟨i, h⟩) == KindApplication
      then setTargetRevision (docs.get ⟨i, h⟩) version else docs.get ⟨i, h⟩)) = some version
    rw [if_pos (by rw [happ]; rfl)]
    rw [getTargetRevision_setTargetRevision (docs.get ⟨i, h⟩) version hfit]

/-- An Application manifest with `spec.source.targetRevision: 1.0.0` and the
ArtifactHub annotation on its first key. -/
def exAppDoc : YamlNode :=
  .node .document "" ""
    [.node .mapping "" ""
      [.node .scalar "kind" "# artifacthub: org/chart" [],
       .node .scalar "Application" "" [],
       .node .scalar "spec" "" [],
       .node .mapping "" ""
         [.node .scalar "source" "" [],
          .node .mapping "" ""
            [.node .scalar "targetRevision" "" [],
             .node .scalar "1.0.0" "" []]]]]

/-- A Secret manifest sharing a file with an Application document. -/
def exSecretDoc : YamlNode :=
  .node .document "" ""
    [.node .mapping "" ""
      [.node .scalar "kind" "" [],
       .node .scalar "Secret" "" []]]

/-- An Application manifest with no `spec` section, hence an empty
targetRevision. -/
def exAppNoRev : YamlNode :=
  .node .document "" ""
    [.node .mapping "" ""
      [.node .scalar "kind" "" [],
       .node .scalar "Application" "" []]]

/-- Witness for C4: in a two-document file only the Application document is
rewritten and its targetRevision afterwards reads the new version. -/
theorem updateDocuments_spec_witness :
    (0 : Nat) < [exAppDoc, exSecretDoc].length ∧
    kindOf ([exAppDoc, exSecretDoc].get ⟨0, by decide⟩) = KindApplication ∧
    fitsTargetRevision ([exAppDoc, exSecretDoc].get ⟨0, by decide⟩) = true ∧
    ((updateDocuments [exAppDoc, exSecretDoc] "2.0.0").get? 0).map getTargetRevision =
      some "2.0.0" :=
  ⟨by decide, by decide, by decide,
    (updateDocuments_spec [exAppDoc, exSecretDoc] "2.0.0").2.2 0 (by decide) (by decide)
      (by decide)⟩

/-! ### C5: the Compare step on an up-to-date manifest -/

/-- C5: when the current version is not `Less` than the resolved latest
version the updater returns an UpToDate result carrying both versions, and
the write collaborator is never invoked (the write trace is empty). -/
theorem chartUpdater_upToDate (cfg : Config) (read : String → Except String (List YamlNode))
    (fetch : String → Except String String) (write : String → List YamlNode → Option String)
    (file repo : String) (docs : List YamlNode) (current latest : String)
    (hread : read (joinPath cfg.dir file) = .ok docs)
    (hfind : findCurrentVersion docs = some current)
    (hfetch : fetch repo = .ok latest)
    (hless : versionLess current latest = false) :
    makeChartUpdater cfg read fetch write file repo =
      (⟨file, repo, current, latest, .upToDate, none⟩, []) := by
  simp [makeChartUpdater, hread, hfind, hfetch, hless]

/-- Witness for C5: a manifest already at the fetched version yields
UpToDate with an empty write trace. -/
theorem chartUpdater_upToDate_witness :
    makeChartUpdater ⟨"argoapps", false, false⟩ (fun _ => .ok [exAppDoc])
      (fun _ => .ok "1.0.0") (fun _ _ => none) "app.yaml" "org/chart" =
      (⟨"app.yaml", "org/chart", "1.0.0", "1.0.0", .upToDate, none⟩, []) :=
  chartUpdater_upToDate ⟨"argoapps", false, false⟩ (fun _ => .ok [exAppDoc])
    (fun _ => .ok "1.0.0") (fun _ _ => none) "app.yaml" "org/chart" [exAppDoc]
    "1.0.0" "1.0.0" rfl (by decide) rfl (by decide)

/-! ### C1: the Read phase -/

/-- C1 counterexample: a file whose only document is Application-kind but
carries no targetRevision. The claim demands an Error-status result, yet
the code accepts the document with current version `""` and proceeds to an
Updated result. -/
theorem chartUpdater_read_counterexample :
    (∀ d ∈ [exAppNoRev], kindOf d = KindApplication → getTargetRevision d = "") ∧
    kindOf exAppNoRev = KindApplication ∧
    (makeChartUpdater ⟨"argoapps", false, false⟩ (fun _ => .ok [exAppNoRev])
      (fun _ => .ok "1.0.0") (fun _ _ => none) "app.yaml" "org/chart").1.status =
      .updated := by
  refine ⟨by decide, by decide, by decide⟩

/-- C1 (amended): the Read phase yields an Error-status result iff the file
cannot be parsed or contains no Application-kind document at all — an
Application document whose targetRevision is empty is accepted; otherwise
the current version read (and carried by the result through all later
phases) is the TargetVersion of the first Application-kind document, which
may be the empty string. -/
theorem chartUpdater_read_phase (cfg : Config)
    (read : String → Except String (List YamlNode))
    (fetch : String → Except String String) (write : String → List YamlNode → Option String)
    (file repo : String) :
    (∀ e, read (joinPath cfg.dir file) = .error e →
      (makeChartUpdater cfg read fetch write file repo).1 =
        ⟨file, repo, "", "", .error, some e⟩) ∧
    (∀ docs, read (joinPath cfg.dir file) = .ok docs →
      ((findCurrentVersion docs = none ↔ ∀ d ∈ docs, kindOf d ≠ KindApplication) ∧
       (findCurrentVersion docs = none →
         (makeChartUpdater cfg read fetch write file repo).1 =
           ⟨file, repo, "", "", .error,
             some ("failed to read current version in " ++ file)⟩) ∧
       (∀ d, docs.find? (fun n => kindOf n == KindApplication) = some d →
         (makeChartUpdater cfg read fetch write file repo).1.current =
           getTargetRevision d))) := by
  constructor
  · intro e he
    simp [makeChartUpdater, he]
  · intro docs hd
    refine ⟨?_, ?_, ?_⟩
    · simp [findCurrentVersion, List.find?_eq_none]
    · intro hnone
      simp [makeChartUpdater, hd, hnone]
    · intro d hfind
      have hcur : findCurrentVersion docs = some (getTargetRevision d) := by
        simp [findCurrentVersion, hfind]
      cases hf : fetch repo with
      | error e => simp [makeChartUpdater, hd, hcur, hf]
      | ok latest =>
        by_cases hv : versionLess (getTargetRevision d) latest
        · cases hw : write (joinPath cfg.dir file) (updateDocuments docs latest) with
          | some werr => simp [makeChartUpdater, hd, hcur, hf, hv, hw]
          | none => simp [makeChartUpdater, hd, hcur, hf, hv, hw]
        · simp [makeChartUpdater, hd, hcur, hf, hv]

/-- Witness for C1 (amended): a failing read surfaces as an Error-status
result carrying the read error. -/
theorem chartUpdater_read_phase_witness :
    (makeChartUpdater ⟨"argoapps", false, false⟩ (fun _ => .error "boom")
      (fun _ => .ok "1.0.0") (fun _ _ => none) "app.yaml" "org/chart").1 =
      ⟨"app.yaml", "org/chart", "", "", .error, some "boom"⟩ :=
  (chartUpdater_read_phase ⟨"argoapps", false, false⟩ (fun _ => .error "boom")
    (fun _ => .ok "1.0.0") (fun _ _ => none) "app.yaml" "org/chart").1 "boom" rfl

/-! ### C3: the PackageID annotation -/

/-- A document whose annotation has no whitespace after the marker colon. -/
def exNoSpaceDoc : YamlNode :=
  .node .document "" ""
    [.node .mapping "" ""
      [.node .scalar "kind" "# artifacthub:org/repo" [],
       .node .scalar "Application" "" []]]

/-- C3 counterexample: the code cuts the marker without requiring whitespace
after it. On a first-key comment `"# artifacthub:org/repo"` — whose character
after the marker is `o`, not whitespace — PackageID is `"org/repo"`, not the
empty string the claim requires. -/
theorem getArtifactHubRepo_counterexample :
    getArtifactHubRepo exNoSpaceDoc = "org/repo" ∧
    getArtifactHubRepo exNoSpaceDoc ≠ "" ∧
    ("# artifacthub:org/repo".data.drop artifactHubMarker.data.length).head? = some 'o' ∧
    isSpaceChar 'o' = false := by
  refine ⟨by decide, by decide, by decide, by decide⟩

/-- C3 (amended): for a document whose root is a mapping with at least one
key, PackageID returns a non-empty identifier iff the leading comment of the
first key begins with the marker `"# artifacthub:"` — whitespace after the
marker is not required — and the remainder trims to a non-empty string; when
the marker is present the result is the remainder with surrounding
whitespace trimmed, and in every other case (marker absent, root not a
mapping, or no keys) the result is the empty string; no error is possible. -/
theorem getArtifactHubRepo_spec (n : YamlNode) :
    (getArtifactHubRepo n ≠ "" ↔
      ((docRoot n).kind = .mapping ∧
       ∃ fk rest, (docRoot n).content = fk :: rest ∧
         goHasPrefix fk.headComment artifactHubMarker = true ∧
         goTrimSpace (String.mk (fk.headComment.data.drop artifactHubMarker.data.length)) ≠ "")) ∧
    (∀ fk rest, (docRoot n).kind = .mapping → (docRoot n).content = fk :: rest →
      getArtifactHubRepo n =
        if goHasPrefix fk.headComment artifactHubMarker
        then goTrimSpace (String.mk (fk.headComment.data.drop artifactHubMarker.data.length))
        else "") ∧
    (((docRoot n).kind ≠ .mapping ∨ (docRoot n).content = []) → getArtifactHubRepo n = "") := by
  by_cases hk : (docRoot n).kind = .mapping
  · cases hc : (docRoot n).content with
    | nil =>
      have hval : getArtifactHubRepo n = "" := by
        simp [getArtifactHubRepo, hk, hc]
      refine ⟨?_, ?_, fun _ => hval⟩
      · rw [hval]
        simp only [ne_eq, not_true_eq_false, false_iff]
        rintro ⟨-, fk, rest, hfr, -⟩
        exact List.noConfusion hfr
      · intro fk rest _ hfr
        exact absurd hfr (List.noConfusion ·)
    | cons fk rest =>
      by_cases hp : goHasPrefix fk.headComment artifactHubMarker = true
      · have hval : getArtifactHubRepo n =
            goTrimSpace (String.mk (fk.headComment.data.drop artifactHubMarker.data.length)) := by
          simp [getArtifactHubRepo, hk, hc, cutMarker, hp]
        refine ⟨?_, ?_, ?_⟩
        · rw [hval]
          constructor
          · intro hne
            exact ⟨hk, fk, rest, rfl, hp, hne⟩
          · rintro ⟨-, fk', rest', hfr', hp', hne'⟩
            obtain ⟨hfk, -⟩ := List.cons.injEq .. ▸ hfr'
            rw [hfk]
            exact hne'
        · intro fk' rest' _ hfr'
          obtain ⟨hfk, -⟩ := List.cons.injEq .. ▸ hfr'
          rw [hval, hfk, if_pos (hfk ▸ hp)]
        · rintro (h | h)
          · exact absurd hk h
          · exact absurd h (List.noConfusion ·)
      · have hval : getArtifactHubRepo n = "" := by
          simp [getArtifactHubRepo, hk, hc, cutMarker, hp]
        refine ⟨?_, ?_, fun _ => hval⟩
        · rw [hval]
          simp only [ne_eq, not_true_eq_false, false_iff]
          rintro ⟨-, fk', rest', hfr', hp', -⟩
          obtain ⟨hfk, -⟩ := List.cons.injEq .. ▸ hfr'
          exact hp (hfk ▸ hp')
        · intro fk' rest' _ hfr'
          obtain ⟨hfk, -⟩ := List.cons.injEq .. ▸ hfr'
          rw [hval, if_neg (fun hh => hp (by rw [hfk]; exact hh))]
  · have hval : getArtifactHubRepo n = "" := by
      simp [getArtifactHubRepo, hk]
    refine ⟨?_, ?_, fun _ => hval⟩
    · rw [hval]
      simp only [ne_eq, not_true_eq_false, false_iff]
      rintro ⟨hmap, -⟩
      exact hk hmap
    · intro fk rest hmap _
      exact absurd hmap hk

/-- Witness for C3: the annotated example document yields its identifier
through the amended characterization. -/
theorem getArtifactHubRepo_spec_witness :
    getArtifactHubRepo exAppDoc ≠ "" :=
  (getArtifactHubRepo_spec exAppDoc).1.mpr
    ⟨by decide, .node .scalar "kind" "# artifacthub: org/chart" [],
      [.node .scalar "Application" "" [],
       .node .scalar "spec" "" [],
       .node .mapping "" ""
         [.node .scalar "source" "" [],
          .node .mapping "" ""
            [.node .scalar "targetRevision" "" [],
             .node .scalar "1.0.0" "" []]]], rfl, by decide, by decide⟩

/-! ### C8 and C9: the discovery pipeline -/

/-- C8: every chart emitted by discovery arises from a listed YAML entry of
the scanned directory whose resolved absolute path is contained in the
resolved absolute directory path — it equals the directory path or extends
it past a path separator. A candidate whose resolved path escapes the
directory is never included, whatever its name. -/
theorem discover_containment (stat : String → Except String Bool)
    (readDir : String → Except String (List DirEntry))
    (readYaml : String → Except String (List YamlNode))
    (abs : String → Option String) (dir : String) (out : List ChartInfo)
    (hout : makeChartDiscoverer stat readDir readYaml abs dir = .ok out) :
    ∀ c ∈ out, ∃ absDir entries e,
      abs dir = some absDir ∧ readDir dir = .ok entries ∧ e ∈ entries ∧
      isYamlFile e = true ∧ c = toChartInfo readYaml (joinPath dir e.name) dir ∧
      ∃ absPath, abs (joinPath dir e.name) = some absPath ∧
        (goHasPrefix absPath (absDir ++ "/") = true ∨ absPath = absDir) := by
  unfold makeChartDiscoverer at hout
  cases hstat : stat dir with
  | error e => rw [hstat] at hout; exact absurd hout (by simp)
  | ok isDir =>
    rw [hstat] at hout
    cases isDir with
    | false => exact absurd hout (by simp)
    | true =>
      simp only [Bool.not_true, Bool.false_eq_true, if_false] at hout
      cases habs : abs dir with
      | none => rw [habs] at hout; exact absurd hout (by simp)
      | some absDir =>
        rw [habs] at hout
        cases hrd : readDir dir with
        | error e => rw [hrd] at hout; exact absurd hout (by simp)
        | ok entries =>
          rw [hrd] at hout
          have hout' : ((((entries.filter isYamlFile).map
              (fun e => joinPath dir e.name)).filter
              (fun p => isValidPath abs absDir p)).map
              (fun p => toChartInfo readYaml p dir)).filter
              (fun c => c.repo != "") = out := by
            simpa using hout
          intro c hc
          rw [← hout'] at hc
          have hc1 := (List.mem_filter.mp hc).1
          obtain ⟨p, hp, hcp⟩ := List.mem_map.mp hc1
          have hp1 := (List.mem_filter.mp hp).1
          have hpvalid := (List.mem_filter.mp hp).2
          obtain ⟨e, he, hep⟩ := List.mem_map.mp hp1
          have he1 := (List.mem_filter.mp he).1
          have heyaml := (List.mem_filter.mp he).2
          refine ⟨absDir, entries, e, rfl, rfl, he1, heyaml, ?_, ?_⟩
          · rw [hep]
            exact hcp.symm
          · rw [← hep] at hpvalid
            unfold isValidPath at hpvalid
            cases hap : abs (joinPath dir e.name) with
            | none => rw [hap] at hpvalid; exact absurd hpvalid (by simp)
            | some absPath =>
              rw [hap] at hpvalid
              refine ⟨absPath, rfl, ?_⟩
              rcases Bool.or_eq_true .. ▸ hpvalid with h | h
              · exact Or.inl h
              · exact Or.inr (by simpa using h)

/-- C9: once the directory listing has succeeded, discovery always returns
a result rather than an error, whatever the per-file reader does; a file
whose read/parse fails contributes the zero `ChartInfo`, which the final
filter drops, and every emitted chart stems from a file that parsed
successfully. -/
theorem discover_parse_failures (stat : String → Except String Bool)
    (readDir : String → Except String (List DirEntry))
    (readYaml : String → Except String (List YamlNode))
    (abs : String → Option String) (dir : String) (entries : List DirEntry)
    (absDir : String)
    (hstat : stat dir = .ok true) (habs : abs dir = some absDir)
    (hrd : readDir dir = .ok entries) :
    (∃ out, makeChartDiscoverer stat readDir readYaml abs dir = .ok out ∧
      ∀ c ∈ out, c.repo ≠ "" ∧
        ∃ p docs, readYaml p = .ok docs ∧ c = toChartInfo readYaml p dir) ∧
    (∀ path e, readYaml path = .error e → toChartInfo readYaml path dir = ⟨"", ""⟩) := by
  constructor
  · refine ⟨((((entries.filter isYamlFile).map (fun e => joinPath dir e.name)).filter
      (fun p => isValidPath abs absDir p)).map
      (fun p => toChartInfo readYaml p dir)).filter (fun c => c.repo != ""), ?_, ?_⟩
    · simp [makeChartDiscoverer, hstat, habs, hrd]
    · intro c hc
      have hrepo : c.repo ≠ "" := by
        have := (List.mem_filter.mp hc).2
        simpa using this
      refine ⟨hrepo, ?_⟩
      have hc1 := (List.mem_filter.mp hc).1
      obtain ⟨p, _, hcp⟩ := List.mem_map.mp hc1
      cases hry : readYaml p with
      | error e =>
        exfalso
        apply hrepo
        rw [← hcp]
        simp [toChartInfo, extractArtifactHubRepo, hry]
      | ok docs => exact ⟨p, docs, hry, hcp.symm⟩
  · intro path e he
    simp [toChartInfo, extractArtifactHubRepo, he]

/-! Concrete discovery collaborators for the witnesses. -/

def exStat : String → Except String Bool := fun _ => .ok true

def exAbs : String → Option String := fun p =>
  if p = "argoapps" then some "/root/argoapps"
  else if p = "argoapps/app.yaml" then some "/root/argoapps/app.yaml"
  else some "/etc/passwd"

def exReadDir : String → Except String (List DirEntry) := fun _ =>
  .ok [⟨"app.yaml", false⟩, ⟨"evil.yaml", false⟩]

def exReadYaml : String → Except String (List YamlNode) := fun _ => .ok [exAppDoc]

def exReadYamlFail : String → Except String (List YamlNode) := fun p =>
  if p = "argoapps/evil.yaml" then .error "parse failure" else .ok [exAppDoc]

/-- Witness for C8: the discovered chart of a concrete run is traced back to
a contained path (the escaping `evil.yaml` entry is absent from the
output). -/
theorem discover_containment_witness :
    ∃ absDir entries e,
      exAbs "argoapps" = some absDir ∧ exReadDir "argoapps" = .ok entries ∧ e ∈ entries ∧
      isYamlFile e = true ∧
      (⟨"app.yaml", "org/chart"⟩ : ChartInfo) =
        toChartInfo exReadYaml (joinPath "argoapps" e.name) "argoapps" ∧
      ∃ absPath, exAbs (joinPath "argoapps" e.name) = some absPath ∧
        (goHasPrefix absPath (absDir ++ "/") = true ∨ absPath = absDir) :=
  discover_containment exStat exReadDir exReadYaml exAbs "argoapps"
    [⟨"app.yaml", "org/chart"⟩] rfl ⟨"app.yaml", "org/chart"⟩ (by decide)

/-- Witness for C9: with one unparsable file in the directory, discovery
still succeeds and each result stems from a parsed file. -/
theorem discover_parse_failures_witness :
    (∃ out, makeChartDiscoverer exStat exReadDir exReadYamlFail exAbs "argoapps" = .ok out ∧
      ∀ c ∈ out, c.repo ≠ "" ∧
        ∃ p docs, exReadYamlFail p = .ok docs ∧ c = toChartInfo exReadYamlFail p "argoapps") ∧
    (∀ path e, exReadYamlFail path = .error e →
      toChartInfo exReadYamlFail path "argoapps" = ⟨"", ""⟩) :=
  discover_parse_failures exStat exReadDir exReadYamlFail exAbs "argoapps"
    [⟨"app.yaml", false⟩, ⟨"evil.yaml", false⟩] "/root/argoapps" rfl rfl rfl

/-! ### C6: the version comparator -/

theorem atoi_empty : atoi "" = 0 := rfl

theorem vcompAt_beyond (l : List String) (i : Nat) (h : l.length ≤ i) : vcompAt l i = 0 := by
  unfold vcompAt
  rw [List.getD_eq_default _ _ h]
  rfl

theorem atoi_getD_eq (l : List String) (i : Nat) :
    atoi (l.getD i "0") = atoi (l.getD i "") := by
  rcases Nat.lt_or_ge i l.length with h | h
  · rw [List.getD_eq_get _ _ h, List.getD_eq_get _ _ h]
  · rw [List.getD_eq_default _ _ h, List.getD_eq_default _ _ h]
    decide

/-- The comparison loop answers true iff some index within the remaining
window is the first (from `i`) where the integer components differ, with the
left one smaller. -/
theorem versionCompAux_iff (as bs : List String) :
    ∀ (fuel i : Nat),
      versionCompAux as bs i fuel = true ↔
        ∃ k, i ≤ k ∧ k < i + fuel ∧
          (∀ j, i ≤ j → j < k → vcompAt as j = vcompAt bs j) ∧
          vcompAt as k < vcompAt bs k
  | 0, i => by
    simp only [versionCompAux, Bool.false_eq_true, false_iff]
    rintro ⟨k, hik, hk, -, -⟩
    omega
  | fuel + 1, i => by
    simp only [versionCompAux]
    rw [show atoi (as.getD i "") = vcompAt as i from rfl,
      show atoi (bs.getD i "") = vcompAt bs i from rfl]
    by_cases hne : vcompAt as i ≠ vcompAt bs i
    · rw [if_pos hne]
      rw [decide_eq_true_iff]
      constructor
      · intro hlt
        exact ⟨i, Nat.le_refl i, by omega, fun j h1 h2 => absurd (Nat.lt_of_le_of_lt h1 h2)
          (Nat.lt_irrefl i), hlt⟩
      · rintro ⟨k, hik, hk, hpre, hlt⟩
        rcases Nat.eq_or_lt_of_le hik with heq | hgt
        · rwa [← heq] at hlt
        · exact absurd (hpre i (Nat.le_refl i) hgt) hne
    · rw [if_neg hne]
      push_neg at hne
      rw [versionCompAux_iff as bs fuel (i + 1)]
      constructor
      · rintro ⟨k, hik, hk, hpre, hlt⟩
        refine ⟨k, by omega, by omega, ?_, hlt⟩
        intro j h1 h2
        rcases Nat.eq_or_lt_of_le h1 with heq | hgt
        · rwa [← heq]
        · exact hpre j hgt h2
      · rintro ⟨k, hik, hk, hpre, hlt⟩
        have hki : k ≠ i := by
          intro h
          rw [h] at hlt
          exact absurd hlt (by rw [hne]; exact lt_irrefl _)
        refine ⟨k, by omega, by omega, fun j h1 h2 => hpre j (by omega) h2, hlt⟩

/-- The comparator `versionLess` decides the lexicographic order on the padded component
sequences. -/
theorem versionLess_eq_lexLt (a b : String) :
    versionLess a b = true ↔ LexLt (vcompAt (goSplitDot a)) (vcompAt (goSplitDot b)) := by
  unfold versionLess LexLt
  rw [versionCompAux_iff]
  constructor
  · rintro ⟨k, -, -, hpre, hlt⟩
    exact ⟨k, fun j hj => hpre j (Nat.zero_le j) hj, hlt⟩
  · rintro ⟨k, hpre, hlt⟩
    refine ⟨k, Nat.zero_le k, ?_, fun j _ hj => hpre j hj, hlt⟩
    by_contra hge
    push_neg at hge
    have hmax : max (goSplitDot a).length (goSplitDot b).length ≤ k := by omega
    have h1 : (goSplitDot a).length ≤ k := Nat.le_trans (Nat.le_max_left _ _) hmax
    have h2 : (goSplitDot b).length ≤ k := Nat.le_trans (Nat.le_max_right _ _) hmax
    rw [vcompAt_beyond _ _ h1, vcompAt_beyond _ _ h2] at hlt
    exact absurd hlt (lt_irrefl 0)

theorem LexLt_irrefl (f : Nat → Int) : ¬LexLt f f := by
  rintro ⟨i, -, hlt⟩
  exact absurd hlt (lt_irrefl _)

theorem LexLt_trans {f g h : Nat → Int} (h1 : LexLt f g) (h2 : LexLt g h) : LexLt f h := by
  obtain ⟨i, pi, li⟩ := h1
  obtain ⟨k, pk, lk⟩ := h2
  rcases lt_trichotomy i k with hik | hik | hik
  · exact ⟨i, fun j hj => (pi j hj).trans (pk j (hj.trans hik)),
      (pk i hik) ▸ li⟩
  · subst hik
    exact ⟨i, fun j hj => (pi j hj).trans (pk j hj), li.trans lk⟩
  · exact ⟨k, fun j hj => (pi j (hj.trans hik)).trans (pk j hj),
      (pi k hik) ▸ lk⟩

theorem LexLt_connex {f g : Nat → Int} (h1 : ¬LexLt f g) (h2 : ¬LexLt g f) :
    ∀ i, f i = g i := by
  intro i
  induction i using Nat.strong_induction_on with
  | _ i ih =>
    rcases lt_trichotomy (f i) (g i) with hlt | heq | hgt
    · exact absurd ⟨i, fun j hj => ih j hj, hlt⟩ h1
    · exact heq
    · exact absurd ⟨i, fun j hj => (ih j hj).symm, hgt⟩ h2

theorem versionLess_irrefl (a : String) : versionLess a a = false := by
  by_contra h
  rw [Bool.not_eq_false] at h
  exact LexLt_irrefl _ ((versionLess_eq_lexLt a a).mp h)

theorem versionLess_trans {a b c : String} (h1 : versionLess a b = true)
    (h2 : versionLess b c = true) : versionLess a c = true :=
  (versionLess_eq_lexLt a c).mpr
    (LexLt_trans ((versionLess_eq_lexLt a b).mp h1) ((versionLess_eq_lexLt b c).mp h2))

theorem versionLess_asymm {a b : String} (h : versionLess a b = true) :
    versionLess b a = false := by
  by_contra h2
  rw [Bool.not_eq_false] at h2
  exact LexLt_irrefl _ (LexLt_trans ((versionLess_eq_lexLt a b).mp h)
    ((versionLess_eq_lexLt b a).mp h2))

/-- Two strings with identical component sequences compare identically
against any third string. -/
theorem versionLess_congr {a b : String}
    (heq : ∀ i, vcompAt (goSplitDot a) i = vcompAt (goSplitDot b) i) (c : String) :
    versionLess a c = versionLess b c ∧ versionLess c a = versionLess c b := by
  have hfun : vcompAt (goSplitDot a) = vcompAt (goSplitDot b) := funext heq
  constructor
  · rw [Bool.eq_iff_iff, versionLess_eq_lexLt, versionLess_eq_lexLt, hfun]
  · rw [Bool.eq_iff_iff, versionLess_eq_lexLt, versionLess_eq_lexLt, hfun]

/-- The loop variant agrees, window by window, with the iterator pipeline of
the second variant (pairs of components padded with `"0"`, first differing
pair decides). -/
theorem versionCompAux_eq_range (as bs : List String) :
    ∀ (fuel i : Nat),
      versionCompAux as bs i fuel =
        (match ((List.range' i fuel).map
            (fun j => (as.getD j "0", bs.getD j "0"))).find?
            (fun p => atoi p.1 != atoi p.2) with
         | some p => decide (atoi p.1 < atoi p.2)
         | none => false)
  | 0, i => by simp [versionCompAux, List.range']
  | fuel + 1, i => by
    rw [List.range'_succ]
    simp only [versionCompAux, List.map_cons, List.find?_cons]
    by_cases hne : atoi (as.getD i "") ≠ atoi (bs.getD i "")
    · rw [if_pos hne]
      have hpv : (atoi (as.getD i "") != atoi (bs.getD i "")) = true := bne_iff_ne.mpr hne
      simp only [atoi_getD_eq as i, atoi_getD_eq bs i, hpv]
    · rw [if_neg hne]
      have hpv : (atoi (as.getD i "0") != atoi (bs.getD i "0")) = false := by
        rw [atoi_getD_eq as i, atoi_getD_eq bs i]
        exact bne_eq_false_iff_eq.mpr (not_ne_iff.mp hne)
      simp only [hpv]
      exact versionCompAux_eq_range as bs fuel (i + 1)

theorem versionLess2_eq_versionLess (a b : String) : versionLess2 a b = versionLess a b := by
  show (match ((List.range (max (goSplitDot a).length (goSplitDot b).length)).map
      (fun i => ((goSplitDot a).getD i "0", (goSplitDot b).getD i "0"))).find?
      (fun p => atoi p.1 != atoi p.2) with
    | some p => decide (atoi p.1 < atoi p.2)
    | none => false) =
    versionCompAux (goSplitDot a) (goSplitDot b) 0
      (max (goSplitDot a).length (goSplitDot b).length)
  rw [List.range_eq_range']
  exact (versionCompAux_eq_range (goSplitDot a) (goSplitDot b)
    (max (goSplitDot a).length (goSplitDot b).length) 0).symm

/-- C6: `versionLess` splits both strings on `.`, compares component-wise as
integers — missing or non-numeric components count as 0 — up to the length
of the longer split; it returns true iff at the first index where the
integers differ the left one is smaller, and false when all compared
components are equal; the iterator variant computes the same function. -/
theorem versionLess_spec (a b : String) :
    (versionLess a b = true ↔
      ∃ i, i < max (goSplitDot a).length (goSplitDot b).length ∧
        (∀ j < i, vcompAt (goSplitDot a) j = vcompAt (goSplitDot b) j) ∧
        vcompAt (goSplitDot a) i < vcompAt (goSplitDot b) i) ∧
    versionLess2 a b = versionLess a b := by
  refine ⟨?_, versionLess2_eq_versionLess a b⟩
  unfold versionLess
  rw [versionCompAux_iff]
  constructor
  · rintro ⟨k, -, hk, hpre, hlt⟩
    exact ⟨k, by omega, fun j hj => hpre j (Nat.zero_le j) hj, hlt⟩
  · rintro ⟨k, hk, hpre, hlt⟩
    exact ⟨k, Nat.zero_le k, by omega, fun j _ hj => hpre j hj, hlt⟩

/-- Witness for C6: the component comparison on a concrete pair where the
numeric order differs from the string order. -/
theorem versionLess_spec_witness :
    versionLess "1.2.10" "1.10.2" = true ∧
      versionLess2 "1.2.10" "1.10.2" = versionLess "1.2.10" "1.10.2" :=
  ⟨(versionLess_spec "1.2.10" "1.10.2").1.mpr
      ⟨1, by decide, fun j hj => by
        interval_cases j
        decide, by decide⟩,
    (versionLess_spec "1.2.10" "1.10.2").2⟩

/-! ### C7: latest stable selection -/

theorem cmpVer_pos_iff (a m : String) : 0 < cmpVer a m ↔ versionLess m a = true := by
  unfold cmpVer
  by_cases h1 : versionLess a m
  · rw [if_pos h1]
    constructor
    · intro h
      exact absurd h (by norm_num)
    · intro h2
      rw [versionLess_asymm h2] at h1
      exact absurd h1 (by simp)
  · rw [if_neg h1]
    by_cases h2 : versionLess m a
    · rw [if_pos h2]
      simp [h2]
    · rw [if_neg h2]
      simp only [lt_self_iff_false, false_iff]
      intro h
      exact h2 h

/-- The `MaxFunc` fold returns an element not `Less` than the seed or any
element of the list, and it is either the seed itself or an element of the
list that strictly dominates the seed and everything before it. -/
theorem foldl_max_spec : ∀ (t : List String) (m : String),
    versionLess (t.foldl maxStep m) m = false ∧
    (∀ v ∈ t, versionLess (t.foldl maxStep m) v = false) ∧
    (t.foldl maxStep m = m ∨
      (versionLess m (t.foldl maxStep m) = true ∧
       ∃ t₁ t₂, t = t₁ ++ (t.foldl maxStep m) :: t₂ ∧
         ∀ x ∈ t₁, versionLess x (t.foldl maxStep m) = true))
  | [], m => ⟨versionLess_irrefl m, by simp, Or.inl rfl⟩
  | a :: t, m => by
    rw [List.foldl_cons]
    by_cases hcmp : 0 < cmpVer a m
    · have hstep : maxStep m a = a := by rw [maxStep, if_pos hcmp]
      rw [hstep]
      have hma : versionLess m a = true := (cmpVer_pos_iff a m).mp hcmp
      obtain ⟨ih1, ih2, ih3⟩ := foldl_max_spec t a
      refine ⟨?_, ?_, ?_⟩
      · by_contra hco
        rw [Bool.not_eq_false] at hco
        rw [versionLess_trans hco hma] at ih1
        exact absurd ih1 (by simp)
      · intro v hv
        rcases List.mem_cons.mp hv with hva | hvt
        · rw [hva]
          exact ih1
        · exact ih2 v hvt
      · right
        rcases ih3 with heq | ⟨har, t₁, t₂, hdec, hpre⟩
        · rw [heq]
          exact ⟨hma, [], t, by simp, by simp⟩
        · refine ⟨versionLess_trans hma har, a :: t₁, t₂,
            by rw [List.cons_append]; exact congrArg (List.cons a) hdec, ?_⟩
          intro x hx
          rcases List.mem_cons.mp hx with hxa | hxt
          · rw [hxa]
            exact har
          · exact hpre x hxt
    · have hstep : maxStep m a = m := by rw [maxStep, if_neg hcmp]
      rw [hstep]
      have hma : versionLess m a = false := by
        cases h : versionLess m a
        · rfl
        · exact absurd ((cmpVer_pos_iff a m).mpr h) hcmp
      obtain ⟨ih1, ih2, ih3⟩ := foldl_max_spec t m
      refine ⟨ih1, ?_, ?_⟩
      · intro v hv
        rcases List.mem_cons.mp hv with hva | hvt
        · rw [hva]
          rcases ih3 with heq | ⟨hmr, -⟩
          · rw [heq]
            exact hma
          · by_contra hco
            rw [Bool.not_eq_false] at hco
            rw [versionLess_trans hmr hco] at hma
            exact absurd hma (by simp)
        · exact ih2 v hvt
      · rcases ih3 with heq | ⟨hmr, t₁, t₂, hdec, hpre⟩
        · exact Or.inl heq
        · right
          refine ⟨hmr, a :: t₁, t₂,
            by rw [List.cons_append]; exact congrArg (List.cons a) hdec, ?_⟩
          intro x hx
          rcases List.mem_cons.mp hx with hxa | hxt
          · rw [hxa]
            by_cases hab : versionLess a m = true
            · exact versionLess_trans hab hmr
            · have h1 : ¬LexLt (vcompAt (goSplitDot a)) (vcompAt (goSplitDot m)) := by
                intro hco
                exact hab ((versionLess_eq_lexLt a m).mpr hco)
              have h2 : ¬LexLt (vcompAt (goSplitDot m)) (vcompAt (goSplitDot a)) := by
                intro hco
                rw [(versionLess_eq_lexLt m a).mpr hco] at hma
                exact absurd hma (by simp)
              have heqc := LexLt_connex h1 h2
              rw [(versionLess_congr heqc (t.foldl maxStep m)).1]
              exact hmr
          · exact hpre x hxt

/-- C7: `findLatestStable` finds nothing iff the input has no stable
version; on any input with a stable element it returns a stable version not
`Less` than any stable element of the list, and ties are broken by first
occurrence — every stable element listed before the winner is strictly
`Less` than it. -/
theorem findLatestStable_spec (vs : List String) :
    (findLatestStable vs = none ↔ ∀ v ∈ vs, isStable v = false) ∧
    (∀ l, findLatestStable vs = some l →
      isStable l = true ∧
      (∀ v ∈ vs, isStable v = true → versionLess l v = false) ∧
      ∃ l₁ l₂, vs.filter isStable = l₁ ++ l :: l₂ ∧
        ∀ x ∈ l₁, versionLess x l = true) := by
  constructor
  · unfold findLatestStable
    cases hf : vs.filter isStable with
    | nil =>
      simp only [true_iff]
      intro v hv
      have := List.filter_eq_nil.mp hf v hv
      exact Bool.eq_false_iff.mpr this
    | cons h t =>
      simp only [reduceCtorEq, false_iff]
      intro hall
      have hnil : vs.filter isStable = [] := List.filter_eq_nil.mpr
        (fun v hv => by rw [hall v hv]; simp)
      rw [hf] at hnil
      exact List.noConfusion hnil
  · intro l hl
    unfold findLatestStable at hl
    cases hf : vs.filter isStable with
    | nil =>
      rw [hf] at hl
      exact absurd hl (by simp)
    | cons h t =>
      rw [hf] at hl
      have hl' : t.foldl maxStep h = l := by
        simpa using hl
      obtain ⟨s1, s2, s3⟩ := foldl_max_spec t h
      rw [hl'] at s1 s2 s3
      have hmem : l ∈ vs.filter isStable := by
        rw [hf]
        rcases s3 with heq | ⟨-, t₁, t₂, hdec, -⟩
        · rw [heq]
          exact List.mem_cons_self h t
        · rw [hdec]
          exact List.mem_cons_of_mem h (List.mem_append_right t₁ (List.mem_cons_self l t₂))
      refine ⟨(List.mem_filter.mp hmem).2, ?_, ?_⟩
      · intro v hv hstable
        have hvf : v ∈ vs.filter isStable := List.mem_filter.mpr ⟨hv, hstable⟩
        rw [hf] at hvf
        rcases List.mem_cons.mp hvf with hvh | hvt
        · rw [hvh]
          exact s1
        · exact s2 v hvt
      · rcases s3 with heq | ⟨hml, t₁, t₂, hdec, hpre⟩
        · exact ⟨[], t, by simp [heq], by simp⟩
        · refine ⟨h :: t₁, t₂, by rw [hdec, List.cons_append], ?_⟩
          intro x hx
          rcases List.mem_cons.mp hx with hxh | hxt
          · rw [hxh]
            exact hml
          · exact hpre x hxt

/-- Witness for C7: on a concrete mixed list the stable maximum is found
and dominates the stable elements. -/
theorem findLatestStable_spec_witness :
    isStable "2.0.0" = true ∧
    (∀ v ∈ ["1.0.0", "2.0.0-rc1", "2.0.0", "1.5.0"], isStable v = true →
      versionLess "2.0.0" v = false) ∧
    ∃ l₁ l₂, ["1.0.0", "2.0.0-rc1", "2.0.0", "1.5.0"].filter isStable = l₁ ++ "2.0.0" :: l₂ ∧
      ∀ x ∈ l₁, versionLess x "2.0.0" = true :=
  (findLatestStable_spec ["1.0.0", "2.0.0-rc1", "2.0.0", "1.5.0"]).2 "2.0.0" (by decide)

end ChartUpdater
